import Mathlib

/-
  Verification of the PyEnvy virtual-environment manager.

  Shallow embedding of the core modules (venv_manager.py, config.py,
  pyenvy.py, workers.py).  Strings are embedded as lists of characters so
  that every operation is executable by the kernel.  Operating-system
  facilities (filesystem tests, symlink resolution, subprocess spawning)
  are passed in as explicit oracle parameters, mirroring the exact sequence
  of calls the Python code makes.
-/

namespace PyEnvy

/-- Character-list strings: the embedding of Python str values. -/
abbrev Str := List Char

/-- Conversion from Lean string literals to the embedding. -/
def ofStr (s : String) : Str := s.data

/-- Split a character-list string on a separator character; mirrors
Python str.split(sep) in the exact splitting behaviour used here. -/
def splitOnChar (sep : Char) (s : Str) : List Str :=
  match s with
  | [] => [[]]
  | c :: rest =>
    let r := splitOnChar sep rest
    if c = sep then [] :: r
    else
      match r with
      | [] => [[c]]
      | h :: t => (c :: h) :: t

/-- Python str.strip(): drop leading and trailing whitespace. -/
def strip (s : Str) : Str :=
  ((s.dropWhile Char.isWhitespace).reverse.dropWhile Char.isWhitespace).reverse

/-- Python str.lower() restricted to the ASCII case used by the program. -/
def lowerStr (s : Str) : Str := s.map Char.toLower

/-- The os.path.join of two components (the second is always relative in
this program): insert a separator unless the head is empty or already
ends with one. -/
def pathJoin (a b : Str) : Str :=
  if a = [] then b
  else if a.getLast? = some '/' then a ++ b
  else a ++ ('/' :: b)

/-- The os.path.basename: final component after the last separator. -/
def basename (s : Str) : Str := (splitOnChar '/' s).getLastD []

/-- Number of path separators in a string; the depth measure of
discover_venvs is the separator count of the path relative to its root. -/
def sepCount (s : Str) : Nat := s.count '/'

/-- Lexicographic order on character lists by code point, the order Python
uses when sorting the lower-cased names. -/
def lexLe : Str → Str → Bool
  | [], _ => true
  | _ :: _, [] => false
  | a :: as, b :: bs => if a = b then lexLe as bs else decide (a < b)

/-- Stable insertion of an element into a list: placed before the first
element it compares at-or-below.  Used to model list.sort. -/
def orderedInsertB (le : α → α → Bool) (a : α) : List α → List α
  | [] => [a]
  | b :: l => if le a b then a :: b :: l else b :: orderedInsertB le a l

/-- Executable sort modelling Python list.sort(key=...); only its
sortedness and permutation properties are used. -/
def insertionSortB (le : α → α → Bool) : List α → List α
  | [] => []
  | a :: l => orderedInsertB le a (insertionSortB le l)

theorem orderedInsertB_perm (le : α → α → Bool) (a : α) (l : List α) :
    (orderedInsertB le a l).Perm (a :: l) := by
  induction l with
  | nil => simp [orderedInsertB]
  | cons b l ih =>
    simp only [orderedInsertB]
    by_cases h : le a b = true
    · simp [h]
    · simp only [h, if_false]
      exact (ih.cons b).trans (List.Perm.swap a b l)

theorem insertionSortB_perm (le : α → α → Bool) (l : List α) :
    (insertionSortB le l).Perm l := by
  induction l with
  | nil => simp [insertionSortB]
  | cons a l ih =>
    exact (orderedInsertB_perm le a (insertionSortB le l)).trans (ih.cons a)

theorem sorted_orderedInsertB (le : α → α → Bool)
    (htrans : ∀ a b c, le a b = true → le b c = true → le a c = true)
    (htot : ∀ a b, le a b = true ∨ le b a = true)
    (a : α) (l : List α) (hl : l.Pairwise (fun x y => le x y = true)) :
    (orderedInsertB le a l).Pairwise (fun x y => le x y = true) := by
  induction l with
  | nil => simp [orderedInsertB]
  | cons b l ih =>
    simp only [orderedInsertB]
    rcases List.pairwise_cons.mp hl with ⟨hb, hl2⟩
    by_cases h : le a b = true
    · simp only [h, if_true]
      refine List.pairwise_cons.mpr ⟨?_, hl⟩
      intro y hy
      rcases List.mem_cons.mp hy with hy | hy
      · subst hy
        exact h
      · exact htrans a b y h (hb y hy)
    · simp only [h, if_false]
      refine List.pairwise_cons.mpr ⟨?_, ih hl2⟩
      intro y hy
      have hmem : y ∈ a :: l := (orderedInsertB_perm le a l).subset hy
      rcases List.mem_cons.mp hmem with hya | hyl
      · rcases htot a b with hab | hba
        · exact absurd hab h
        · rw [hya]
          exact hba
      · exact hb y hyl

theorem sorted_insertionSortB (le : α → α → Bool)
    (htrans : ∀ a b c, le a b = true → le b c = true → le a c = true)
    (htot : ∀ a b, le a b = true ∨ le b a = true)
    (l : List α) :
    (insertionSortB le l).Pairwise (fun x y => le x y = true) := by
  induction l with
  | nil => simp [insertionSortB]
  | cons a l ih =>
    exact sorted_orderedInsertB le htrans htot a (insertionSortB le l) ih

/-! ## Data model (venv_manager.py classes) -/

/-- venv_manager.PythonInstall: a detected interpreter. -/
structure PythonInstall where
  path : Str
  version : Str
  source : Str
deriving DecidableEq, Repr

/-- venv_manager.VenvInfo: an environment descriptor. -/
structure VenvInfo where
  name : Str
  path : Str
  python_version : Str
  python_home : Str
  is_valid : Bool
  source : Str
deriving DecidableEq, Repr

/-- venv_manager.PackageInfo: a listed package. -/
structure PackageInfo where
  name : Str
  version : Str
deriving DecidableEq, Repr

/-- venv_manager.SKIP_DIRS: the fixed denylist of directory names the
discovery walk never descends into. -/
def SKIP_DIRS : List Str :=
  [ofStr "node_modules", ofStr ".git", ofStr "__pycache__", ofStr ".tox",
   ofStr ".nox", ofStr ".eggs", ofStr "dist", ofStr "build",
   ofStr ".mypy_cache", ofStr ".pytest_cache", ofStr "Library",
   ofStr "Applications", ofStr ".Trash", ofStr ".cache", ofStr ".npm",
   ofStr ".cargo", ofStr ".rustup", ofStr ".local", ofStr ".pyenv",
   ofStr ".nvm", ofStr "Pictures", ofStr "Music", ofStr "Movies",
   ofStr ".docker"]

/-! ## pyvenv.cfg parsing (venv_manager.parse_pyvenv_cfg, lines 113-127)

The Python code accumulates the pairs into a dict.  The dict is only
observed through membership emptiness and get, so it is embedded as an
association list in which inserting a key removes any previous binding:
lookup returns the latest binding and the list is empty exactly when the
dict is. -/

/-- Dict assignment data[key] = value, observed through lookup and
emptiness only. -/
def dinsert (data : List (Str × Str)) (key value : Str) : List (Str × Str) :=
  (key, value) :: data.filter (fun p => p.1 ≠ key)

/-- One iteration of the parsing loop of parse_pyvenv_cfg (lines
120-124): strip the line; when it contains an equals sign, split it at
the first equals sign by str.partition, strip key and value and assign;
otherwise leave the dict unchanged. -/
def parseLine (data : List (Str × Str)) (rawline : Str) : List (Str × Str) :=
  let line := strip rawline
  if line.contains '=' then
    let key := strip (line.takeWhile (fun c => c ≠ '='))
    let value := strip ((line.dropWhile (fun c => c ≠ '=')).drop 1)
    dinsert data key value
  else data

/-- Parsing of the metadata file content: line oriented, folding
parseLine over the lines of the file. -/
def parseContent (content : Str) : List (Str × Str) :=
  (splitOnChar '\n' content).foldl parseLine []

/-- Python dict.get(key, default) over the association-list dict. -/
def cfgGet (data : List (Str × Str)) (key : Str) (dflt : Str) : Str :=
  (data.lookup key).getD dflt

/-- Version derivation of _build_venv_info (line 138):
cfg.get of version, falling back to version_info, falling back to the
literal unknown. -/
def cfgVersion (data : List (Str × Str)) : Str :=
  cfgGet data (ofStr "version") (cfgGet data (ofStr "version_info") (ofStr "unknown"))

/-- Python-home derivation of _build_venv_info (line 139): cfg.get of
home defaulting to empty. -/
def cfgHome (data : List (Str × Str)) : Str :=
  cfgGet data (ofStr "home") []

/-! ## Filesystem oracle

The filesystem checks the Python code performs (os.path.isdir,
os.path.exists, os.path.isfile, os.access with X_OK, reading a file) are
modelled as an oracle record of the answers the operating system would
give; the code under verification is exactly the sequence of such calls
it makes. -/

structure FSOracle where
  isFile : Str → Bool
  isDir : Str → Bool
  pathExists : Str → Bool
  isExec : Str → Bool
  readFile : Str → Option Str

/-- venv_manager.parse_pyvenv_cfg (lines 113-127): returns the empty dict
when the file does not exist or opening it raises IOError, otherwise the
parsed content. -/
def parse_pyvenv_cfg (fs : FSOracle) (venv_path : Str) : List (Str × Str) :=
  let cfg_path := pathJoin venv_path (ofStr "pyvenv.cfg")
  if fs.pathExists cfg_path then
    match fs.readFile cfg_path with
    | none => []
    | some content => parseContent content
  else []

/-- venv_manager._build_venv_info (lines 130-148).  Returns none when the
parsed cfg dict is empty.  The walk hands this function paths that are
already absolute, so os.path.abspath is the identity here. -/
def build_venv_info (fs : FSOracle) (dirpath : Str) (source : Str) :
    Option VenvInfo :=
  let cfg := parse_pyvenv_cfg fs dirpath
  if cfg = [] then none
  else
    let python_bin := pathJoin (pathJoin dirpath (ofStr "bin")) (ofStr "python")
    some
      { name := basename dirpath
        path := dirpath
        python_version := cfgVersion cfg
        python_home := cfgHome cfg
        is_valid := fs.isFile python_bin && fs.isExec python_bin
        source := source }

/-- venv_manager.load_managed_venvs (lines 184-200), written as structural
recursion over the registered paths, equivalent to the Python for loop. -/
def load_managed_venvs (fs : FSOracle) : List Str → List VenvInfo
  | [] => []
  | path :: rest =>
    (if fs.isDir path && fs.pathExists (pathJoin path (ofStr "pyvenv.cfg")) then
      match build_venv_info fs path (ofStr "managed") with
      | some info => [info]
      | none => []
    else
      [{ name := basename path
         path := path
         python_version := ofStr "unknown"
         python_home := []
         is_valid := false
         source := ofStr "managed (missing)" }]) ++ load_managed_venvs fs rest

/-! ## Environment deletion (venv_manager.delete_venv, lines 220-224)

For the deletion safety claim the filesystem is modelled concretely as
the list of existing paths, so that the mutation performed by
shutil.rmtree is expressible. -/

structure FileSys where
  paths : List Str
deriving DecidableEq, Repr

/-- Existence test on the concrete filesystem. -/
def FileSys.exi (fs : FileSys) (p : Str) : Bool := fs.paths.contains p

/-- shutil.rmtree: removes the path and every path below it. -/
def rmtree (fs : FileSys) (path : Str) : FileSys :=
  { paths := fs.paths.filter
      (fun q => ¬(q = path ∨ (pathJoin path []).isPrefixOf q)) }

/-- The error raised by delete_venv when the safety check fails. -/
inductive DeleteErr where
  | safetyCheck (path : Str)
deriving DecidableEq, Repr

/-- venv_manager.delete_venv: raises the safety-check VenvError unless
pyvenv.cfg exists under the path at this moment, otherwise recursively
removes the tree.  The returned pair is the filesystem after the call and
the raised error if any. -/
def delete_venv (fs : FileSys) (path : Str) : FileSys × Option DeleteErr :=
  if fs.exi (pathJoin path (ofStr "pyvenv.cfg")) then
    (rmtree fs path, none)
  else
    (fs, some (.safetyCheck path))

/-! ## Managed-path registry (config.add_managed_venv, lines 35-39) -/

/-- config.add_managed_venv: normalizes the given path with
os.path.abspath (an oracle parameter: it does not resolve symlinks) and
appends it unless that exact string is already registered. -/
def add_managed_venv (abspath : Str → Str) (managed : List Str)
    (venv_path : Str) : List Str :=
  let path := abspath venv_path
  if managed.contains path then managed else managed ++ [path]

/-! ## Claim C2: deletion safety -/

/-- C2: delete_venv with the metadata file absent at the path (whether the
path is missing entirely or is a plain file) raises the SafetyCheck
VenvError and leaves the filesystem untouched; with the metadata file
present it removes exactly the paths at or below the target. -/
theorem delete_venv_safetyCheck (fs : FileSys) (path : Str) :
    (fs.exi (pathJoin path (ofStr "pyvenv.cfg")) = false →
      delete_venv fs path = (fs, some (DeleteErr.safetyCheck path))) ∧
    (fs.exi (pathJoin path (ofStr "pyvenv.cfg")) = true →
      (delete_venv fs path).2 = none ∧
      ∀ q, q ∈ (delete_venv fs path).1.paths ↔
        q ∈ fs.paths ∧ q ≠ path ∧ ¬ (pathJoin path []).isPrefixOf q = true) := by
  constructor
  · intro h
    simp [delete_venv, h]
  · intro h
    refine ⟨by simp [delete_venv, h], ?_⟩
    intro q
    simp only [delete_venv, h, if_true, rmtree, List.mem_filter,
      decide_eq_true_eq, not_or, decide_not, Bool.not_eq_true]

/-- C2 witness: on a concrete filesystem, deleting a registered
environment removes its whole subtree and nothing else, and deleting a
plain file and a missing path both fail with SafetyCheck unchanged. -/
theorem delete_venv_safetyCheck_witness :
    (FileSys.mk [ofStr "/e", ofStr "/e/pyvenv.cfg", ofStr "/e/bin",
        ofStr "/other"]).exi
      (pathJoin (ofStr "/e") (ofStr "pyvenv.cfg")) = true ∧
    (delete_venv (FileSys.mk [ofStr "/e", ofStr "/e/pyvenv.cfg",
        ofStr "/e/bin", ofStr "/other"]) (ofStr "/e")).2 = none ∧
    ((ofStr "/other") ∈ (delete_venv (FileSys.mk [ofStr "/e",
        ofStr "/e/pyvenv.cfg", ofStr "/e/bin", ofStr "/other"])
        (ofStr "/e")).1.paths ↔
      (ofStr "/other") ∈ [ofStr "/e", ofStr "/e/pyvenv.cfg", ofStr "/e/bin",
        ofStr "/other"] ∧ (ofStr "/other") ≠ ofStr "/e" ∧
        ¬ (pathJoin (ofStr "/e") []).isPrefixOf (ofStr "/other") = true) ∧
    (FileSys.mk [ofStr "/plain"]).exi
      (pathJoin (ofStr "/plain") (ofStr "pyvenv.cfg")) = false ∧
    delete_venv (FileSys.mk [ofStr "/plain"]) (ofStr "/plain")
      = (FileSys.mk [ofStr "/plain"],
         some (DeleteErr.safetyCheck (ofStr "/plain"))) := by
  refine ⟨by decide, ?_, ?_, by decide, ?_⟩
  · exact ((delete_venv_safetyCheck (FileSys.mk [ofStr "/e",
      ofStr "/e/pyvenv.cfg", ofStr "/e/bin", ofStr "/other"])
      (ofStr "/e")).2 (by decide)).1
  · exact ((delete_venv_safetyCheck (FileSys.mk [ofStr "/e",
      ofStr "/e/pyvenv.cfg", ofStr "/e/bin", ofStr "/other"])
      (ofStr "/e")).2 (by decide)).2 (ofStr "/other")
  · exact (delete_venv_safetyCheck (FileSys.mk [ofStr "/plain"])
      (ofStr "/plain")).1 (by decide)

/-! ## Claim C4: registry insertion deduplication -/

/-- Model of os.path.abspath on inputs that are already absolute and
normalized: the identity; crucially it does not resolve symlinks. -/
def abspathModel : Str → Str := fun p => p

/-- A concrete symlink layout for the canonicalization oracle: the path
/b is a symbolic link to /a, every other path resolves to itself. -/
def realpathLink : Str → Str := fun p => if p = ofStr "/b" then ofStr "/a" else p

/-- C4 counterexample: with /b a symlink to /a and /a already registered,
add_managed_venv appends /b anyway — the registry changes even though the
canonical form of the inserted path is already present, and afterwards
two entries share the canonical path /a.  Insertion deduplicates by
absolute path string, not by symlink-resolved canonical path. -/
theorem add_managed_venv_canonical_cex :
    realpathLink (ofStr "/b") = realpathLink (ofStr "/a") ∧
    add_managed_venv abspathModel [ofStr "/a"] (ofStr "/b")
      = [ofStr "/a", ofStr "/b"] ∧
    add_managed_venv abspathModel [ofStr "/a"] (ofStr "/b") ≠ [ofStr "/a"] ∧
    (add_managed_venv abspathModel [ofStr "/a"] (ofStr "/b")).map realpathLink
      = [ofStr "/a", ofStr "/a"] := by
  refine ⟨by decide, by decide, by decide, by decide⟩

/-- C4 amended: insertion into the managed-path registry deduplicates by
the normalized absolute path (os.path.abspath, which does not resolve
symlinks): inserting a path whose absolute form is already present leaves
the registry unchanged, otherwise the absolute form is appended, and a
registry without duplicate entries stays duplicate-free. -/
theorem add_managed_venv_abspath_dedup (abspath : Str → Str)
    (managed : List Str) (p : Str) :
    (abspath p ∈ managed → add_managed_venv abspath managed p = managed) ∧
    (abspath p ∉ managed →
      add_managed_venv abspath managed p = managed ++ [abspath p]) ∧
    (managed.Nodup → (add_managed_venv abspath managed p).Nodup) := by
  refine ⟨?_, ?_, ?_⟩
  · intro h
    simp [add_managed_venv, List.elem_iff, h]
  · intro h
    simp [add_managed_venv, List.elem_iff, h]
  · intro hnd
    by_cases h : abspath p ∈ managed
    · simp [add_managed_venv, List.elem_iff, h, hnd]
    · simp [add_managed_venv, List.elem_iff, h, List.nodup_append,
        hnd, List.nodup_singleton]

/-- C4 amended witness: inserting an already-registered absolute path is
a no-op, a fresh one is appended, and no duplicate appears. -/
theorem add_managed_venv_abspath_dedup_witness :
    (abspathModel (ofStr "/a") ∈ [ofStr "/a"] ∧
      add_managed_venv abspathModel [ofStr "/a"] (ofStr "/a") = [ofStr "/a"]) ∧
    (abspathModel (ofStr "/c") ∉ [ofStr "/a"] ∧
      add_managed_venv abspathModel [ofStr "/a"] (ofStr "/c")
        = [ofStr "/a"] ++ [abspathModel (ofStr "/c")]) ∧
    ([ofStr "/a"].Nodup →
      (add_managed_venv abspathModel [ofStr "/a"] (ofStr "/c")).Nodup) := by
  refine ⟨⟨by decide, (add_managed_venv_abspath_dedup abspathModel [ofStr "/a"]
      (ofStr "/a")).1 (by decide)⟩,
    ⟨by decide, (add_managed_venv_abspath_dedup abspathModel [ofStr "/a"]
      (ofStr "/c")).2.1 (by decide)⟩,
    (add_managed_venv_abspath_dedup abspathModel [ofStr "/a"]
      (ofStr "/c")).2.2⟩

/-! ## Claim C7: metadata parsing contract -/

/-- A line whose stripped form has no equals sign leaves the dict
unchanged. -/
theorem parseLine_no_eq (data : List (Str × Str)) (rawline : Str)
    (h : (strip rawline).contains '=' = false) :
    parseLine data rawline = data := by
  have h2 : ¬ '=' ∈ strip rawline := by simpa using h
  simp [parseLine, h2]

/-- Folding the parser over lines that all lack an equals sign keeps the
dict as it was. -/
theorem foldl_parseLine_no_eq (lines : List Str) (data : List (Str × Str))
    (h : ∀ l ∈ lines, (strip l).contains '=' = false) :
    lines.foldl parseLine data = data := by
  induction lines generalizing data with
  | nil => rfl
  | cons l ls ih =>
    rw [List.foldl_cons, parseLine_no_eq data l (h l (List.mem_cons_self l ls))]
    exact ih data (fun x hx => h x (List.mem_cons_of_mem l hx))

/-- The scenario content of the claim: version, home, an unrecognized
included key, and a trailing blank line without an equals sign. -/
def cfgScenario : Str :=
  ofStr "version = 3.11.4\nhome = /usr/local\nincluded = true\n"

/-- A concrete filesystem oracle holding the scenario metadata file at
the environment path /env. -/
def fsScenario : FSOracle :=
  { isFile := fun _ => false
    isDir := fun p => decide (p = ofStr "/env")
    pathExists := fun p => decide (p = ofStr "/env/pyvenv.cfg")
    isExec := fun _ => false
    readFile := fun p =>
      if p = ofStr "/env/pyvenv.cfg" then some cfgScenario else none }

/-- C7: the metadata parser splits each line at its first equals sign
with both sides stripped, ignores lines without an equals sign, makes the
descriptor absent when no pair parses, derives the version through the
version then version_info then unknown chain, defaults the home to empty,
and on the scenario content yields version 3.11.4 and home /usr/local
while the descriptor consumes no key besides version, version_info and
home — in particular nothing from the included pair. -/
theorem parse_pyvenv_cfg_contract :
    (cfgVersion (parseContent cfgScenario) = ofStr "3.11.4" ∧
     cfgHome (parseContent cfgScenario) = ofStr "/usr/local") ∧
    ((build_venv_info fsScenario (ofStr "/env") (ofStr "discovered")).map
        VenvInfo.python_version = some (ofStr "3.11.4") ∧
     (build_venv_info fsScenario (ofStr "/env") (ofStr "discovered")).map
        VenvInfo.python_home = some (ofStr "/usr/local")) ∧
    parseContent (ofStr " a = b=c ") = [(ofStr "a", ofStr "b=c")] ∧
    (∀ content, (∀ line ∈ splitOnChar '\n' content,
        (strip line).contains '=' = false) → parseContent content = []) ∧
    (∀ fs vp source, parse_pyvenv_cfg fs vp = [] →
        build_venv_info fs vp source = none) ∧
    cfgVersion (parseContent (ofStr "version_info = 3.12.0")) = ofStr "3.12.0" ∧
    cfgVersion (parseContent (ofStr "foo = bar")) = ofStr "unknown" ∧
    cfgHome (parseContent (ofStr "foo = bar")) = [] ∧
    (∀ d1 d2 : List (Str × Str),
       d1.lookup (ofStr "version") = d2.lookup (ofStr "version") →
       d1.lookup (ofStr "version_info") = d2.lookup (ofStr "version_info") →
       d1.lookup (ofStr "home") = d2.lookup (ofStr "home") →
       cfgVersion d1 = cfgVersion d2 ∧ cfgHome d1 = cfgHome d2) := by
  refine ⟨⟨by decide, by decide⟩, ⟨by decide, by decide⟩, by decide,
    ?_, ?_, by decide, by decide, by decide, ?_⟩
  · intro content h
    exact foldl_parseLine_no_eq (splitOnChar '\n' content) [] h
  · intro fs vp source h
    simp [build_venv_info, h]
  · intro d1 d2 h1 h2 h3
    constructor
    · simp [cfgVersion, cfgGet, h1, h2]
    · simp [cfgHome, cfgGet, h3]

/-- C7 witness: the general conjuncts applied at concrete inputs — a
content of two lines with no equals sign parses to nothing, and an oracle
with no metadata file yields an absent descriptor. -/
theorem parse_pyvenv_cfg_contract_witness :
    (∀ line ∈ splitOnChar '\n' (ofStr "hello\nworld"),
        (strip line).contains '=' = false) ∧
    parseContent (ofStr "hello\nworld") = [] ∧
    parse_pyvenv_cfg (FSOracle.mk (fun _ => false) (fun _ => false)
        (fun _ => false) (fun _ => false) (fun _ => none)) (ofStr "/x") = [] ∧
    build_venv_info (FSOracle.mk (fun _ => false) (fun _ => false)
        (fun _ => false) (fun _ => false) (fun _ => none)) (ofStr "/x")
        (ofStr "managed") = none := by
  refine ⟨by decide, ?_, by decide, ?_⟩
  · exact parse_pyvenv_cfg_contract.2.2.2.1 (ofStr "hello\nworld") (by decide)
  · exact parse_pyvenv_cfg_contract.2.2.2.2.1
      (FSOracle.mk (fun _ => false) (fun _ => false) (fun _ => false)
        (fun _ => false) (fun _ => none)) (ofStr "/x") (ofStr "managed")
      (by decide)

/-! ## Claim C10: managed-path loading -/

/-- A concrete oracle in which /v is a directory whose metadata file
exists but contains no key value pair at all. -/
def fsNoKeys : FSOracle :=
  { isFile := fun _ => false
    isDir := fun p => decide (p = ofStr "/v")
    pathExists := fun p => decide (p = ofStr "/v/pyvenv.cfg")
    isExec := fun _ => false
    readFile := fun p =>
      if p = ofStr "/v/pyvenv.cfg" then
        some (ofStr "this file holds no key value pair")
      else none }

/-- C10 counterexample: a registered path that is a directory containing
a metadata file with no parseable key yields no descriptor at all, so
loadManaged does not emit exactly one descriptor per registered path. -/
theorem load_managed_venvs_missing_descriptor_cex :
    load_managed_venvs fsNoKeys [ofStr "/v"] = [] ∧
    ([ofStr "/v"] : List Str).length = 1 := by
  exact ⟨by decide, by decide⟩

/-- Per-path emission of load_managed_venvs: the body of its loop for a
single registered path. -/
def emitManaged (fs : FSOracle) (path : Str) : List VenvInfo :=
  if fs.isDir path && fs.pathExists (pathJoin path (ofStr "pyvenv.cfg")) then
    match build_venv_info fs path (ofStr "managed") with
    | some info => [info]
    | none => []
  else
    [{ name := basename path
       path := path
       python_version := ofStr "unknown"
       python_home := []
       is_valid := false
       source := ofStr "managed (missing)" }]

/-- A successfully built descriptor carries the provenance it was built
with. -/
theorem build_venv_info_source (fs : FSOracle) (p source : Str)
    (i : VenvInfo) (h : build_venv_info fs p source = some i) :
    i.source = source := by
  by_cases hc : parse_pyvenv_cfg fs p = []
  · simp [build_venv_info, hc] at h
  · simp only [build_venv_info, hc, if_false] at h
    cases h
    rfl

/-- C10 amended: loadManaged emits at most one descriptor per registered
path; a path that is not a directory holding the metadata file yields
exactly the managed-missing placeholder with validity false, a path whose
metadata parses yields exactly one descriptor with provenance managed,
and a directory whose metadata file is present but parses to no key
yields no descriptor. -/
theorem load_managed_venvs_per_path (fs : FSOracle) (paths : List Str) :
    load_managed_venvs fs paths = paths.flatMap (emitManaged fs) ∧
    (∀ p, (emitManaged fs p).length ≤ 1) ∧
    (∀ p, (fs.isDir p && fs.pathExists (pathJoin p (ofStr "pyvenv.cfg")))
        = false →
      emitManaged fs p
        = [{ name := basename p, path := p, python_version := ofStr "unknown",
             python_home := [], is_valid := false,
             source := ofStr "managed (missing)" }]) ∧
    (∀ p, (fs.isDir p && fs.pathExists (pathJoin p (ofStr "pyvenv.cfg")))
        = true →
      (∀ i, build_venv_info fs p (ofStr "managed") = some i →
        emitManaged fs p = [i] ∧ i.source = ofStr "managed") ∧
      (build_venv_info fs p (ofStr "managed") = none → emitManaged fs p = [])) := by
  refine ⟨?_, ?_, ?_, ?_⟩
  · induction paths with
    | nil => rfl
    | cons p ps ih =>
      simp only [load_managed_venvs, List.flatMap_cons, emitManaged, ih]
  · intro p
    by_cases h : (fs.isDir p && fs.pathExists (pathJoin p (ofStr "pyvenv.cfg")))
        = true
    · cases hb : build_venv_info fs p (ofStr "managed") with
      | none => simp [emitManaged, h, hb]
      | some i => simp [emitManaged, h, hb]
    · simp [emitManaged, h]
  · intro p h
    simp [emitManaged, h]
  · intro p h
    refine ⟨?_, ?_⟩
    · intro i hi
      exact ⟨by simp [emitManaged, h, hi],
        build_venv_info_source fs p (ofStr "managed") i hi⟩
    · intro hn
      simp [emitManaged, h, hn]

/-- C10 amended witness: a registry holding one healthy environment and
one stale path loads to the built descriptor followed by the placeholder. -/
theorem load_managed_venvs_per_path_witness :
    load_managed_venvs fsScenario [ofStr "/env", ofStr "/gone"]
      = [ofStr "/env", ofStr "/gone"].flatMap (emitManaged fsScenario) ∧
    ((fsScenario.isDir (ofStr "/gone") &&
        fsScenario.pathExists (pathJoin (ofStr "/gone") (ofStr "pyvenv.cfg")))
      = false ∧
     emitManaged fsScenario (ofStr "/gone")
      = [{ name := basename (ofStr "/gone"), path := ofStr "/gone",
           python_version := ofStr "unknown", python_home := [],
           is_valid := false, source := ofStr "managed (missing)" }]) := by
  refine ⟨(load_managed_venvs_per_path fsScenario
      [ofStr "/env", ofStr "/gone"]).1, by decide,
    (load_managed_venvs_per_path fsScenario
      [ofStr "/env", ofStr "/gone"]).2.2.1 (ofStr "/gone") (by decide)⟩

/-! ## Package operations layer (venv_manager.py lines 227-282)

Each operation is embedded together with the list of subprocess command
lines it spawns, so that fail-fast behaviour (not invoking the bundled
interpreter) is observable. -/

/-- Result of a completed subprocess.run call. -/
structure ProcResult where
  returncode : Int
  stdout : Str
  stderr : Str
deriving DecidableEq, Repr

/-- Operating-system level exceptions a subprocess.run call can raise. -/
inductive SpawnExn where
  | timeoutExpired
  | fileNotFoundError
  | permissionError
deriving DecidableEq, Repr

/-- Oracle for subprocess invocation, together with the structured-output
reading done by list_packages (json.loads plus the name and version key
lookups; none models JSONDecodeError or KeyError). -/
structure ProcOracle where
  run : List Str → Except SpawnExn ProcResult
  parsePipJson : Str → Option (List (Str × Str))

/-- venv_manager.get_venv_python (lines 227-228): the bundled interpreter
path, resolved from the environment path alone at a fixed relative
location. -/
def get_venv_python (venv_path : Str) : Str :=
  pathJoin (pathJoin venv_path (ofStr "bin")) (ofStr "python")

/-- Errors surfaced by package operations: the typed VenvError the code
raises on non-zero exit, or an operating-system exception the code does
not catch, propagating out of the call. -/
inductive PkgErr where
  | venvError (msg : Str)
  | uncaught (e : SpawnExn)
deriving DecidableEq, Repr

/-- venv_manager.list_packages (lines 231-246): returns the empty list
without spawning anything when the bundled interpreter file is missing;
otherwise invokes pip list, swallowing timeouts, non-zero exits and
malformed output into an empty list.  A FileNotFoundError or
PermissionError from the spawn itself is not in the except clause and
propagates. -/
def list_packages (fs : FSOracle) (proc : ProcOracle) (venv_path : Str) :
    Except PkgErr (List PackageInfo) × List (List Str) :=
  let venv_python := get_venv_python venv_path
  if fs.isFile venv_python then
    let cmd := [venv_python, ofStr "-m", ofStr "pip", ofStr "list",
      ofStr "--format=json"]
    (match proc.run cmd with
     | .error .timeoutExpired => .ok []
     | .error e => .error (.uncaught e)
     | .ok r =>
       if r.returncode ≠ 0 then .ok []
       else
         match proc.parsePipJson r.stdout with
         | none => .ok []
         | some ps => .ok (ps.map (fun nv => PackageInfo.mk nv.1 nv.2)),
     [cmd])
  else (.ok [], [])

/-- venv_manager.install_package (lines 249-258): resolves the bundled
interpreter path and invokes pip install unconditionally — there is no
check that the interpreter file exists before the spawn. -/
def install_package (proc : ProcOracle) (venv_path package_spec : Str) :
    Except PkgErr Str × List (List Str) :=
  let venv_python := get_venv_python venv_path
  let cmd := [venv_python, ofStr "-m", ofStr "pip", ofStr "install",
    package_spec]
  (match proc.run cmd with
   | .error e => .error (.uncaught e)
   | .ok r =>
     if r.returncode ≠ 0 then
       .error (.venvError (ofStr "pip install failed:\n" ++ (r.stdout ++ r.stderr)))
     else .ok (r.stdout ++ r.stderr),
   [cmd])

/-- venv_manager.remove_package (lines 261-270): same shape as install,
invoking pip uninstall -y unconditionally. -/
def remove_package (proc : ProcOracle) (venv_path package_name : Str) :
    Except PkgErr Str × List (List Str) :=
  let venv_python := get_venv_python venv_path
  let cmd := [venv_python, ofStr "-m", ofStr "pip", ofStr "uninstall",
    ofStr "-y", package_name]
  (match proc.run cmd with
   | .error e => .error (.uncaught e)
   | .ok r =>
     if r.returncode ≠ 0 then
       .error (.venvError (ofStr "pip uninstall failed:\n" ++ (r.stdout ++ r.stderr)))
     else .ok (r.stdout ++ r.stderr),
   [cmd])

/-- venv_manager.upgrade_package (lines 273-282): same shape as install,
invoking pip install --upgrade unconditionally. -/
def upgrade_package (proc : ProcOracle) (venv_path package_name : Str) :
    Except PkgErr Str × List (List Str) :=
  let venv_python := get_venv_python venv_path
  let cmd := [venv_python, ofStr "-m", ofStr "pip", ofStr "install",
    ofStr "--upgrade", package_name]
  (match proc.run cmd with
   | .error e => .error (.uncaught e)
   | .ok r =>
     if r.returncode ≠ 0 then
       .error (.venvError (ofStr "pip upgrade failed:\n" ++ (r.stdout ++ r.stderr)))
     else .ok (r.stdout ++ r.stderr),
   [cmd])

/-! ## Claim C1: fail-fast on a missing bundled interpreter -/

/-- An oracle filesystem with no files at all. -/
def fsEmpty : FSOracle :=
  { isFile := fun _ => false
    isDir := fun _ => false
    pathExists := fun _ => false
    isExec := fun _ => false
    readFile := fun _ => none }

/-- The operating system response when the spawned executable is missing:
every run raises FileNotFoundError. -/
def procMissing : ProcOracle :=
  { run := fun _ => .error .fileNotFoundError
    parsePipJson := fun _ => none }

/-- C1 counterexample: with the bundled interpreter file missing,
install_package still performs the spawn — the invocation list is the pip
install command — and what comes back is the uncaught operating-system
FileNotFoundError, not a typed InterpreterUnavailable failure raised
before invoking the interpreter. -/
theorem install_package_no_fail_fast_cex :
    fsEmpty.isFile (get_venv_python (ofStr "/v")) = false ∧
    (install_package procMissing (ofStr "/v") (ofStr "requests")).2
      = [[get_venv_python (ofStr "/v"), ofStr "-m", ofStr "pip",
          ofStr "install", ofStr "requests"]] ∧
    (install_package procMissing (ofStr "/v") (ofStr "requests")).1
      = .error (.uncaught .fileNotFoundError) := by
  exact ⟨by decide, by decide, rfl⟩

/-- C1 amended: every package operation resolves the bundled interpreter
from the environment path alone at the fixed relative location bin/python;
list fails fast with an empty result and no invocation when that file is
missing, but install, remove and upgrade perform no missing-interpreter
check: each spawns its single pip command unconditionally, and a missing
interpreter surfaces as the uncaught spawn exception rather than a typed
error raised before invocation. -/
theorem package_ops_interpreter_resolution (fs : FSOracle) (proc : ProcOracle)
    (vp s : Str) :
    (fs.isFile (get_venv_python vp) = false →
      list_packages fs proc vp = (.ok [], [])) ∧
    (fs.isFile (get_venv_python vp) = true →
      (list_packages fs proc vp).2
        = [[get_venv_python vp, ofStr "-m", ofStr "pip", ofStr "list",
            ofStr "--format=json"]]) ∧
    (install_package proc vp s).2
      = [[get_venv_python vp, ofStr "-m", ofStr "pip", ofStr "install", s]] ∧
    (remove_package proc vp s).2
      = [[get_venv_python vp, ofStr "-m", ofStr "pip", ofStr "uninstall",
          ofStr "-y", s]] ∧
    (upgrade_package proc vp s).2
      = [[get_venv_python vp, ofStr "-m", ofStr "pip", ofStr "install",
          ofStr "--upgrade", s]] := by
  refine ⟨?_, ?_, rfl, rfl, rfl⟩
  · intro h
    simp [list_packages, h]
  · intro h
    simp [list_packages, h]

/-- C1 amended witness: the fail-fast branch of list on the empty
filesystem, and the unconditional single invocation of install. -/
theorem package_ops_interpreter_resolution_witness :
    fsEmpty.isFile (get_venv_python (ofStr "/v")) = false ∧
    list_packages fsEmpty procMissing (ofStr "/v") = (.ok [], []) ∧
    (install_package procMissing (ofStr "/v") (ofStr "numpy")).2
      = [[get_venv_python (ofStr "/v"), ofStr "-m", ofStr "pip",
          ofStr "install", ofStr "numpy"]] := by
  refine ⟨by decide, ?_, ?_⟩
  · exact (package_ops_interpreter_resolution fsEmpty procMissing (ofStr "/v")
      (ofStr "numpy")).1 (by decide)
  · exact (package_ops_interpreter_resolution fsEmpty procMissing (ofStr "/v")
      (ofStr "numpy")).2.2.1

/-! ## Background task supervisor (workers.py)

BackgroundTask.run wraps the callable in try and emits exactly one of the
finished and error signals; TaskManager.run wires each signal to a
handler that pops the task from the registry, notifies the status
callback when one is configured, and forwards to the caller callbacks.
The full submit-run-complete cycle of one unit of work is sequentialized
into the observable effects below; signal delivery invokes a connected
handler exactly once. -/

/-- Outcome of the wrapped callable: a normal return or a raised
exception (the two branches of BackgroundTask.run). -/
inductive TaskOutcome where
  | ok (result : Str)
  | raised (err : Str)
deriving DecidableEq, Repr

/-- Observable effects of one supervised unit of work: how often each
terminal callback ran, the status notifications in order, and the final
live-task registry. -/
structure SupervisedRun where
  successCalls : Nat
  errorCalls : Nat
  statusCalls : List (Str × Bool)
  registry : List Str
deriving DecidableEq, Repr

/-- Dict key insertion for the live-task registry. -/
def registryInsert (reg : List Str) (tid : Str) : List Str :=
  if reg.contains tid then reg else reg ++ [tid]

/-- workers.TaskManager.run (lines 29-51) followed by the completion of
the spawned BackgroundTask (lines 16-21): the status callback fires with
busy true when configured and a status message was given; the task is
registered and started; the callable completes with the given outcome and
exactly one signal is emitted; its handler pops the task id, notifies
Ready or Error with busy false when a status callback is configured, then
invokes on_success, or on_error only when one was supplied. -/
def superviseOne (reg : List Str) (task_id : Str) (outcome : TaskOutcome)
    (hasErrorCb hasStatusCb : Bool) (statusMsg : Option Str) : SupervisedRun :=
  let pre : List (Str × Bool) :=
    match statusMsg, hasStatusCb with
    | some m, true => [(m, true)]
    | _, _ => []
  let reg2 := (registryInsert reg task_id).filter (fun t => t ≠ task_id)
  match outcome with
  | .ok _ =>
    { successCalls := 1
      errorCalls := 0
      statusCalls := pre ++ (if hasStatusCb then [(ofStr "Ready", false)] else [])
      registry := reg2 }
  | .raised e =>
    { successCalls := 0
      errorCalls := if hasErrorCb then 1 else 0
      statusCalls := pre ++
        (if hasStatusCb then [(ofStr "Error: " ++ e, false)] else [])
      registry := reg2 }

/-! ## Claim C9: exactly one terminal callback -/

/-- C9 counterexample: on_error defaults to None in TaskManager.run; a
unit of work submitted without an error callback whose operation raises
invokes no terminal callback at all, so success XOR error fails — it is
neither, not exactly one. -/
theorem supervisor_no_error_cb_cex :
    (superviseOne [] (ofStr "t1") (.raised (ofStr "boom")) false true
        (some (ofStr "working"))).successCalls = 0 ∧
    (superviseOne [] (ofStr "t1") (.raised (ofStr "boom")) false true
        (some (ofStr "working"))).errorCalls = 0 := by
  exact ⟨by decide, by decide⟩

/-- C9 amended: the supervisor never invokes both terminal callbacks; a
normal return always invokes the success callback exactly once and never
the error callback; a raise never invokes the success callback and
invokes the error callback exactly once when one was supplied — and none
when not; in every case the task is removed from the live-task registry,
and whenever a status observer is configured it is notified of the
transition back to not-busy. -/
theorem supervisor_terminal_callbacks (reg : List Str) (tid : Str)
    (outcome : TaskOutcome) (hec hsc : Bool) (msg : Option Str) :
    (superviseOne reg tid outcome hec hsc msg).successCalls
        + (superviseOne reg tid outcome hec hsc msg).errorCalls ≤ 1 ∧
    (∀ res, outcome = .ok res →
      (superviseOne reg tid outcome hec hsc msg).successCalls = 1 ∧
      (superviseOne reg tid outcome hec hsc msg).errorCalls = 0) ∧
    (∀ e, outcome = .raised e →
      (superviseOne reg tid outcome hec hsc msg).successCalls = 0 ∧
      (hec = true → (superviseOne reg tid outcome hec hsc msg).errorCalls = 1)) ∧
    tid ∉ (superviseOne reg tid outcome hec hsc msg).registry ∧
    (hsc = true → ∃ m, (m, false) ∈
      (superviseOne reg tid outcome hec hsc msg).statusCalls) := by
  have hreg : tid ∉ ((registryInsert reg tid).filter (fun t => t ≠ tid)) := by
    intro hmem
    have := (List.mem_filter.mp hmem).2
    simp at this
  cases outcome with
  | ok res =>
    refine ⟨?_, ?_, ?_, ?_, ?_⟩
    · simp [superviseOne]
    · intro r _
      exact ⟨rfl, rfl⟩
    · intro e he
      exact absurd he (by simp)
    · exact hreg
    · intro h
      exact ⟨ofStr "Ready", by simp [superviseOne, h]⟩
  | raised e =>
    refine ⟨?_, ?_, ?_, ?_, ?_⟩
    · cases hec <;> simp [superviseOne]
    · intro r hr
      exact absurd hr (by simp)
    · intro e2 _
      refine ⟨rfl, ?_⟩
      intro h
      simp [superviseOne, h]
    · exact hreg
    · intro h
      exact ⟨ofStr "Error: " ++ e, by simp [superviseOne, h]⟩

/-- C9 amended witness: a failing unit of work with an error callback
supplied fires it exactly once, leaves the registry without the task, and
notifies not-busy. -/
theorem supervisor_terminal_callbacks_witness :
    ((superviseOne [ofStr "t1"] (ofStr "t1") (.raised (ofStr "boom")) true true
        (some (ofStr "Removing..."))).successCalls = 0 ∧
      (true = true →
        (superviseOne [ofStr "t1"] (ofStr "t1") (.raised (ofStr "boom")) true
          true (some (ofStr "Removing..."))).errorCalls = 1)) ∧
    (ofStr "t1") ∉ (superviseOne [ofStr "t1"] (ofStr "t1")
        (.raised (ofStr "boom")) true true (some (ofStr "Removing..."))).registry := by
  refine ⟨(supervisor_terminal_callbacks [ofStr "t1"] (ofStr "t1")
      (.raised (ofStr "boom")) true true (some (ofStr "Removing..."))).2.2.1
      (ofStr "boom") rfl,
    (supervisor_terminal_callbacks [ofStr "t1"] (ofStr "t1")
      (.raised (ofStr "boom")) true true (some (ofStr "Removing..."))).2.2.2.1⟩

/-! ## The merge of managed and discovered environments
(pyenvy.py _refresh_venvs, lines 317-337) -/

theorem lexLe_trans : ∀ a b c : Str, lexLe a b = true → lexLe b c = true →
    lexLe a c = true := by
  intro a
  induction a with
  | nil =>
    intro b c _ _
    rfl
  | cons x xs ih =>
    intro b c hab hbc
    cases b with
    | nil => simp [lexLe] at hab
    | cons y ys =>
      cases c with
      | nil => simp [lexLe] at hbc
      | cons z zs =>
        simp only [lexLe] at hab hbc ⊢
        by_cases hxy : x = y
        · subst hxy
          rw [if_pos rfl] at hab
          by_cases hxz : x = z
          · subst hxz
            rw [if_pos rfl] at hbc ⊢
            exact ih ys zs hab hbc
          · rw [if_neg hxz] at hbc ⊢
            exact hbc
        · rw [if_neg hxy] at hab
          have hlt1 : x < y := of_decide_eq_true hab
          by_cases hyz : y = z
          · subst hyz
            rw [if_neg hxy]
            exact hab
          · rw [if_neg hyz] at hbc
            have hlt2 : y < z := of_decide_eq_true hbc
            have hlt : x < z := lt_trans hlt1 hlt2
            rw [if_neg (ne_of_lt hlt)]
            exact decide_eq_true hlt

theorem lexLe_total : ∀ a b : Str, lexLe a b = true ∨ lexLe b a = true := by
  intro a
  induction a with
  | nil =>
    intro b
    exact Or.inl rfl
  | cons x xs ih =>
    intro b
    cases b with
    | nil => exact Or.inr rfl
    | cons y ys =>
      simp only [lexLe]
      by_cases hxy : x = y
      · subst hxy
        rw [if_pos rfl, if_pos rfl]
        exact ih ys
      · rcases lt_or_gt_of_ne hxy with h | h
        · left
          rw [if_neg hxy]
          exact decide_eq_true h
        · right
          rw [if_neg (Ne.symm hxy)]
          exact decide_eq_true h

/-- The merge loops of _refresh_venvs: one pass over the descriptors in
order, keeping a descriptor only when the canonical (symlink-resolved)
path of its stored path has not been seen, and recording it as seen when
kept.  The two Python for loops over managed then discovered with one
shared seen set are this single pass over their concatenation. -/
def dedupByRealpath (realpath : Str → Str) :
    List VenvInfo → List Str → List VenvInfo
  | [], _ => []
  | v :: vs, seen =>
    if realpath v.path ∈ seen then dedupByRealpath realpath vs seen
    else v :: dedupByRealpath realpath vs (realpath v.path :: seen)

/-- The case-insensitive name order of merged.sort(key=lambda v:
v.name.lower()). -/
def nameLe (a b : VenvInfo) : Bool := lexLe (lowerStr a.name) (lowerStr b.name)

/-- pyenvy._refresh_venvs merge (lines 324-336): managed results first,
then discovered results, deduplicated by canonical path keeping the first
seen, then sorted by case-insensitive name. -/
def merge_venvs (realpath : Str → Str) (managed discovered : List VenvInfo) :
    List VenvInfo :=
  insertionSortB nameLe (dedupByRealpath realpath (managed ++ discovered) [])

theorem dedupByRealpath_not_seen (realpath : Str → Str) :
    ∀ (l : List VenvInfo) (seen : List Str) (v : VenvInfo),
      v ∈ dedupByRealpath realpath l seen → realpath v.path ∉ seen := by
  intro l
  induction l with
  | nil =>
    intro seen v hv
    simp [dedupByRealpath] at hv
  | cons a l ih =>
    intro seen v hv
    simp only [dedupByRealpath] at hv
    by_cases h : realpath a.path ∈ seen
    · rw [if_pos h] at hv
      exact ih seen v hv
    · rw [if_neg h] at hv
      rcases List.mem_cons.mp hv with hva | hvl
      · rw [hva]
        exact h
      · intro hmem
        exact ih _ v hvl (List.mem_cons_of_mem _ hmem)

theorem dedupByRealpath_pairwise (realpath : Str → Str) :
    ∀ (l : List VenvInfo) (seen : List Str),
      (dedupByRealpath realpath l seen).Pairwise
        (fun a b => realpath a.path ≠ realpath b.path) := by
  intro l
  induction l with
  | nil =>
    intro seen
    simp [dedupByRealpath]
  | cons a l ih =>
    intro seen
    simp only [dedupByRealpath]
    by_cases h : realpath a.path ∈ seen
    · rw [if_pos h]
      exact ih seen
    · rw [if_neg h]
      refine List.pairwise_cons.mpr ⟨?_, ih _⟩
      intro v hv
      have := dedupByRealpath_not_seen realpath l _ v hv
      intro heq
      exact this (heq ▸ List.mem_cons_self _ _)

theorem dedupByRealpath_subset (realpath : Str → Str) :
    ∀ (l : List VenvInfo) (seen : List Str) (v : VenvInfo),
      v ∈ dedupByRealpath realpath l seen → v ∈ l := by
  intro l
  induction l with
  | nil =>
    intro seen v hv
    simp [dedupByRealpath] at hv
  | cons a l ih =>
    intro seen v hv
    simp only [dedupByRealpath] at hv
    by_cases h : realpath a.path ∈ seen
    · rw [if_pos h] at hv
      exact List.mem_cons_of_mem a (ih seen v hv)
    · rw [if_neg h] at hv
      rcases List.mem_cons.mp hv with hva | hvl
      · rw [hva]
        exact List.mem_cons_self a l
      · exact List.mem_cons_of_mem a (ih _ v hvl)

/-- Every kept descriptor is the first element of the pass whose
canonical path equals its own: everything before it in the pass has a
different canonical path. -/
theorem dedupByRealpath_first (realpath : Str → Str) :
    ∀ (l : List VenvInfo) (seen : List Str) (v : VenvInfo),
      v ∈ dedupByRealpath realpath l seen →
      ∃ pre post, l = pre ++ v :: post ∧
        ∀ u ∈ pre, realpath u.path ≠ realpath v.path := by
  intro l
  induction l with
  | nil =>
    intro seen v hv
    simp [dedupByRealpath] at hv
  | cons a l ih =>
    intro seen v hv
    have hnseen := dedupByRealpath_not_seen realpath (a :: l) seen v hv
    simp only [dedupByRealpath] at hv
    by_cases h : realpath a.path ∈ seen
    · rw [if_pos h] at hv
      rcases ih seen v hv with ⟨pre, post, hsplit, hpre⟩
      refine ⟨a :: pre, post, by rw [hsplit]; rfl, ?_⟩
      intro u hu
      rcases List.mem_cons.mp hu with hua | hul
      · rw [hua]
        intro heq
        exact hnseen (heq ▸ h)
      · exact hpre u hul
    · rw [if_neg h] at hv
      rcases List.mem_cons.mp hv with hva | hvl
      · exact ⟨[], l, by rw [hva]; rfl, by intro u hu; simp at hu⟩
      · have hnseen2 := dedupByRealpath_not_seen realpath l _ v hvl
        rcases ih _ v hvl with ⟨pre, post, hsplit, hpre⟩
        refine ⟨a :: pre, post, by rw [hsplit]; rfl, ?_⟩
        intro u hu
        rcases List.mem_cons.mp hu with hua | hul
        · rw [hua]
          intro heq
          exact hnseen2 (heq ▸ List.mem_cons_self _ _)
        · exact hpre u hul

/-! ## Claim C3: the merge contract -/

/-- C3: the merge is a sorted permutation of the pass that concatenates
managed results before discovered results and keeps only the first
descriptor per canonical path; the result is sorted by case-insensitive
name, holds at most one descriptor per canonical path, draws every
descriptor from the inputs, and whenever provenance tags distinguish the
two inputs, a surviving discovered-provenance descriptor never shares a
canonical path with any managed descriptor — on collision the managed one
is kept and the discovered one dropped. -/
theorem merge_venvs_contract (realpath : Str → Str)
    (managed discovered : List VenvInfo) :
    (merge_venvs realpath managed discovered).Perm
      (dedupByRealpath realpath (managed ++ discovered) []) ∧
    (merge_venvs realpath managed discovered).Pairwise
      (fun a b => nameLe a b = true) ∧
    (merge_venvs realpath managed discovered).Pairwise
      (fun a b => realpath a.path ≠ realpath b.path) ∧
    (∀ v ∈ merge_venvs realpath managed discovered, v ∈ managed ++ discovered) ∧
    ((∀ m ∈ managed, m.source ≠ ofStr "discovered") →
     (∀ d ∈ discovered, d.source = ofStr "discovered") →
     ∀ v ∈ merge_venvs realpath managed discovered,
       v.source = ofStr "discovered" →
       ∀ m ∈ managed, realpath m.path ≠ realpath v.path) := by
  have hperm : (merge_venvs realpath managed discovered).Perm
      (dedupByRealpath realpath (managed ++ discovered) []) :=
    insertionSortB_perm nameLe _
  refine ⟨hperm, ?_, ?_, ?_, ?_⟩
  · exact sorted_insertionSortB nameLe
      (fun a b c => lexLe_trans (lowerStr a.name) (lowerStr b.name)
        (lowerStr c.name))
      (fun a b => lexLe_total (lowerStr a.name) (lowerStr b.name)) _
  · exact (hperm.pairwise_iff (fun h => Ne.symm h)).mpr
      (dedupByRealpath_pairwise realpath (managed ++ discovered) [])
  · intro v hv
    exact dedupByRealpath_subset realpath (managed ++ discovered) [] v
      (hperm.mem_iff.mp hv)
  · intro hm hd v hv hvsrc m hmm heq
    have hvd : v ∈ dedupByRealpath realpath (managed ++ discovered) [] :=
      hperm.mem_iff.mp hv
    rcases dedupByRealpath_first realpath (managed ++ discovered) [] v hvd
      with ⟨pre, post, hsplit, hpre⟩
    have hvnm : v ∉ managed := by
      intro hvm
      exact absurd hvsrc (hm v hvm)
    have hmpre : m ∈ pre := by
      rcases List.append_eq_append_iff.mp hsplit with ⟨a2, ha, _⟩ | ⟨c2, hc, hd2⟩
      · rw [ha]
        exact List.mem_append_left a2 hmm
      · cases c2 with
        | nil =>
          rw [hc, List.append_nil] at hmm
          exact hmm
        | cons w ws =>
          exfalso
          apply hvnm
          have hvw : v = w := by
            rw [List.cons_append] at hd2
            exact (List.cons_eq_cons.mp hd2).1
          rw [hc, hvw]
          exact List.mem_append_right pre (List.mem_cons_self w ws)
    exact hpre m hmpre heq

/-- A managed descriptor rooted at /a, for concrete merge runs. -/
def mAlpha : VenvInfo :=
  { name := ofStr "Alpha", path := ofStr "/a", python_version := ofStr "3.11",
    python_home := [], is_valid := true, source := ofStr "managed" }

/-- A discovered descriptor rooted at /c, canonical path distinct from
/a. -/
def dBeta : VenvInfo :=
  { name := ofStr "beta", path := ofStr "/c", python_version := ofStr "3.12",
    python_home := [], is_valid := true, source := ofStr "discovered" }

/-- A discovered descriptor rooted at /b, which realpathLink resolves to
the canonical path /a of the managed descriptor. -/
def dGamma : VenvInfo :=
  { name := ofStr "gamma", path := ofStr "/b", python_version := ofStr "3.12",
    python_home := [], is_valid := true, source := ofStr "discovered" }

/-- C3 witness: on a concrete run where one discovered descriptor
collides with the managed one through a symlink, the merge keeps the
managed and the fresh discovered descriptor in case-insensitive name
order, and the contract applied at the surviving discovered descriptor
yields that its canonical path differs from every managed one. -/
theorem merge_venvs_contract_witness :
    merge_venvs realpathLink [mAlpha] [dBeta, dGamma] = [mAlpha, dBeta] ∧
    (∀ m ∈ [mAlpha], m.source ≠ ofStr "discovered") ∧
    (∀ d ∈ [dBeta, dGamma], d.source = ofStr "discovered") ∧
    dBeta ∈ merge_venvs realpathLink [mAlpha] [dBeta, dGamma] ∧
    realpathLink mAlpha.path ≠ realpathLink dBeta.path := by
  refine ⟨by decide, by decide, by decide, by decide, ?_⟩
  exact (merge_venvs_contract realpathLink [mAlpha] [dBeta, dGamma]).2.2.2.2
    (by decide) (by decide) dBeta (by decide) (by decide) mAlpha
    (List.mem_singleton.mpr rfl)

/-! ## Environment discovery (venv_manager.discover_venvs, lines 151-181)

The directory trees under the scan roots are modelled as a mutual
inductive of trees and named forests, so the walk is mutual structural
recursion and fully evaluable.  os.walk with followlinks False visits the
current directory first, then the subdirectories surviving the in-place
dirnames pruning, depth first and in order; the depth of a directory is
recomputed from its path string exactly as the code does. -/

mutual
inductive DirTree where
  | node (files : List (Str × Str)) (subdirs : ForestT)
inductive ForestT where
  | nil
  | cons (name : Str) (t : DirTree) (rest : ForestT)
end

/-- The files of the root directory of a tree. -/
def DirTree.filesOf : DirTree → List (Str × Str)
  | .node fs _ => fs

/-- The named subdirectories of the root directory of a tree. -/
def DirTree.subdirsOf : DirTree → ForestT
  | .node _ sd => sd

/-- Find the subdirectory of a given name. -/
def ForestT.lookupDir : ForestT → Str → Option DirTree
  | .nil, _ => none
  | .cons name t rest, n => if name = n then some t else rest.lookupDir n

/-- Python str.startswith applied to a single dot. -/
def startsWithDot : Str → Bool
  | '.' :: _ => true
  | _ => false

/-- The dirnames pruning condition of discover_venvs (lines 166-170): a
subdirectory name survives when it is neither in SKIP_DIRS nor hidden, or
when it is literally .venv or .env — Python operator precedence groups
the expression exactly this way, so the two environment conventions are
never excluded. -/
def keepDirname (d : Str) : Bool :=
  (!(SKIP_DIRS.contains d) && !(startsWithDot d))
    || d == ofStr ".venv" || d == ofStr ".env"

/-- venv_manager._build_venv_info evaluated against the tree the walk is
visiting: the metadata file is read from the node, and the interpreter
check os.path.isfile(dirpath/bin/python) asks the node for a bin
subdirectory holding a python file, with executability from the oracle. -/
def build_tree_info (isExec : Str → Bool) (dirpath : Str) (t : DirTree)
    (source : Str) : Option VenvInfo :=
  match t.filesOf.lookup (ofStr "pyvenv.cfg") with
  | none => none
  | some content =>
    let cfg := parseContent content
    if cfg = [] then none
    else
      let python_bin := pathJoin (pathJoin dirpath (ofStr "bin")) (ofStr "python")
      let hasBinPython :=
        match t.subdirsOf.lookupDir (ofStr "bin") with
        | some bt => (bt.filesOf.lookup (ofStr "python")).isSome
        | none => false
      some
        { name := basename dirpath
          path := dirpath
          python_version := cfgVersion cfg
          python_home := cfgHome cfg
          is_valid := hasBinPython && isExec python_bin
          source := source }

mutual
/-- The body of the os.walk loop of discover_venvs at one directory:
recompute the depth from the path string and stop without yielding when
it has reached max_depth; when the directory holds pyvenv.cfg, treat it
as an environment leaf — deduplicate by canonical path, build the
descriptor, and do not descend; otherwise descend into the subdirectories
surviving the pruning. -/
def walkTree (isExec : Str → Bool) (realpath : Str → Str) (maxDepth : Nat)
    (base : Str) (t : DirTree) (dirpath : Str) (seen : List Str) :
    List VenvInfo × List Str :=
  match t with
  | .node files subdirs =>
    if sepCount (dirpath.drop base.length) ≥ maxDepth then ([], seen)
    else if (files.map Prod.fst).contains (ofStr "pyvenv.cfg") then
      let real := realpath dirpath
      if real ∈ seen then ([], seen)
      else
        match build_tree_info isExec dirpath (.node files subdirs)
            (ofStr "discovered") with
        | some info => ([info], real :: seen)
        | none => ([], seen)
    else walkForest isExec realpath maxDepth base subdirs dirpath seen

/-- Depth-first traversal of the surviving subdirectories in order,
threading the seen set. -/
def walkForest (isExec : Str → Bool) (realpath : Str → Str) (maxDepth : Nat)
    (base : Str) (ts : ForestT) (dirpath : Str) (seen : List Str) :
    List VenvInfo × List Str :=
  match ts with
  | .nil => ([], seen)
  | .cons name child rest =>
    if keepDirname name then
      let p := walkTree isExec realpath maxDepth base child
        (pathJoin dirpath name) seen
      let q := walkForest isExec realpath maxDepth base rest dirpath p.2
      (p.1 ++ q.1, q.2)
    else walkForest isExec realpath maxDepth base rest dirpath seen
end

/-- The body of the outer loop of discover_venvs over scan roots: a root
that is not a directory is silently skipped (modelled as a root carried
with no tree), otherwise its tree is walked with the shared accumulated
results and seen set. -/
def discoverStep (isExec : Str → Bool) (realpath : Str → Str) (maxDepth : Nat)
    (acc : List VenvInfo × List Str) (root : Str × Option DirTree) :
    List VenvInfo × List Str :=
  match root.2 with
  | none => acc
  | some t =>
    let p := walkTree isExec realpath maxDepth root.1 t root.1 acc.2
    (acc.1 ++ p.1, p.2)

/-- venv_manager.discover_venvs (lines 151-181): scan each root in order
with one shared seen set.  Roots are given already expanded and absolute,
so os.path.expanduser is the identity. -/
def discover_venvs (isExec : Str → Bool) (realpath : Str → Str)
    (roots : List (Str × Option DirTree)) (maxDepth : Nat) : List VenvInfo :=
  (roots.foldl (discoverStep isExec realpath maxDepth) ([], [])).1

/-- A built descriptor stores exactly the directory path it was built
at. -/
theorem build_tree_info_path (isExec : Str → Bool) (dirpath : Str)
    (t : DirTree) (source : Str) (i : VenvInfo)
    (h : build_tree_info isExec dirpath t source = some i) : i.path = dirpath := by
  cases t with
  | node files subdirs =>
    simp only [build_tree_info] at h
    cases hc : (DirTree.filesOf (.node files subdirs)).lookup (ofStr "pyvenv.cfg") with
    | none =>
      rw [hc] at h
      exact absurd h (by simp)
    | some content =>
      rw [hc] at h
      dsimp only at h
      by_cases hcfg : parseContent content = []
      · rw [if_pos hcfg] at h
        exact absurd h (by simp)
      · rw [if_neg hcfg] at h
        cases h
        rfl

/-- An executability oracle answering no everywhere. -/
def isExecNone : Str → Bool := fun _ => false

/-- A canonicalization oracle for layouts without symlinks. -/
def realpathId : Str → Str := fun p => p

/-- A minimal parseable metadata content for sample trees. -/
def cfgSample : Str := ofStr "version = 3.11.4"

/-- A sample scan layout: the root holds a .venv environment and a .git
directory that also contains a metadata file. -/
def sampleTree : DirTree :=
  .node []
    (.cons (ofStr ".venv") (.node [(ofStr "pyvenv.cfg", cfgSample)] .nil)
      (.cons (ofStr ".git") (.node [(ofStr "pyvenv.cfg", cfgSample)] .nil)
        .nil))

/-- The descriptor discovery returns for the sample layout under the
root /r. -/
def sampleVenvInfo : VenvInfo :=
  { name := ofStr ".venv", path := ofStr "/r/.venv",
    python_version := ofStr "3.11.4", python_home := [],
    is_valid := false, source := ofStr "discovered" }

/-- Every descriptor the walk emits was built at a directory whose
recomputed depth had not reached max_depth, so its stored path sits
strictly below the bound. -/
theorem walkTree_depth_lt (isExec : Str → Bool) (realpath : Str → Str)
    (maxDepth : Nat) (base : Str) :
    ∀ (t : DirTree) (dirpath : Str) (seen : List Str),
      ∀ v ∈ (walkTree isExec realpath maxDepth base t dirpath seen).1,
        sepCount (v.path.drop base.length) < maxDepth := by
  refine walkTree.induct isExec realpath maxDepth base
    (fun t dirpath seen =>
      ∀ v ∈ (walkTree isExec realpath maxDepth base t dirpath seen).1,
        sepCount (v.path.drop base.length) < maxDepth)
    (fun ts dirpath seen =>
      ∀ v ∈ (walkForest isExec realpath maxDepth base ts dirpath seen).1,
        sepCount (v.path.drop base.length) < maxDepth)
    ?_ ?_ ?_ ?_ ?_ ?_ ?_ ?_
  · intro dirpath seen fs subdirs h v hv
    simp only [walkTree, if_pos h] at hv
    exact absurd hv (List.not_mem_nil v)
  · intro dirpath seen fs subdirs h1 h2 real hmem v hv
    have hmem2 : realpath dirpath ∈ seen := hmem
    simp only [walkTree, if_neg h1, h2, if_true, if_pos hmem2] at hv
    exact absurd hv (List.not_mem_nil v)
  · intro dirpath seen fs subdirs h1 h2 real hmem info hbuild v hv
    have hmem2 : realpath dirpath ∉ seen := hmem
    simp only [walkTree, if_neg h1, h2, if_true, if_neg hmem2, hbuild] at hv
    have hpath : v.path = dirpath := by
      rw [List.mem_singleton.mp hv]
      exact build_tree_info_path isExec dirpath _ _ info hbuild
    rw [hpath]
    omega
  · intro dirpath seen fs subdirs h1 h2 real hmem hbuild v hv
    have hmem2 : realpath dirpath ∉ seen := hmem
    simp only [walkTree, if_neg h1, h2, if_true, if_neg hmem2, hbuild] at hv
    exact absurd hv (List.not_mem_nil v)
  · intro dirpath seen fs subdirs h1 h2 ih v hv
    simp only [walkTree, if_neg h1, if_neg h2] at hv
    exact ih v hv
  · intro dirpath seen v hv
    simp only [walkForest] at hv
    exact absurd hv (List.not_mem_nil v)
  · intro dirpath seen name child rest hkeep p ih1 ih2 v hv
    simp only [walkForest, if_pos hkeep, List.mem_append] at hv
    rcases hv with hv | hv
    · exact ih1 v hv
    · exact ih2 v hv
  · intro dirpath seen name child rest hkeep ih v hv
    simp only [walkForest, if_neg hkeep] at hv
    exact ih v hv

/-- Every descriptor the walk emits sits at a path reached from the
current directory through components that all survive the pruning
condition. -/
theorem walkTree_components (isExec : Str → Bool) (realpath : Str → Str)
    (maxDepth : Nat) (base : Str) :
    ∀ (t : DirTree) (dirpath : Str) (seen : List Str),
      ∀ v ∈ (walkTree isExec realpath maxDepth base t dirpath seen).1,
        ∃ comps : List Str, v.path = comps.foldl pathJoin dirpath ∧
          ∀ c ∈ comps, keepDirname c = true := by
  refine walkTree.induct isExec realpath maxDepth base
    (fun t dirpath seen =>
      ∀ v ∈ (walkTree isExec realpath maxDepth base t dirpath seen).1,
        ∃ comps : List Str, v.path = comps.foldl pathJoin dirpath ∧
          ∀ c ∈ comps, keepDirname c = true)
    (fun ts dirpath seen =>
      ∀ v ∈ (walkForest isExec realpath maxDepth base ts dirpath seen).1,
        ∃ comps : List Str, v.path = comps.foldl pathJoin dirpath ∧
          ∀ c ∈ comps, keepDirname c = true)
    ?_ ?_ ?_ ?_ ?_ ?_ ?_ ?_
  · intro dirpath seen fs subdirs h v hv
    simp only [walkTree, if_pos h] at hv
    exact absurd hv (List.not_mem_nil v)
  · intro dirpath seen fs subdirs h1 h2 real hmem v hv
    have hmem2 : realpath dirpath ∈ seen := hmem
    simp only [walkTree, if_neg h1, h2, if_true, if_pos hmem2] at hv
    exact absurd hv (List.not_mem_nil v)
  · intro dirpath seen fs subdirs h1 h2 real hmem info hbuild v hv
    have hmem2 : realpath dirpath ∉ seen := hmem
    simp only [walkTree, if_neg h1, h2, if_true, if_neg hmem2, hbuild] at hv
    refine ⟨[], ?_, by intro c hc; exact absurd hc (List.not_mem_nil c)⟩
    rw [List.mem_singleton.mp hv]
    exact build_tree_info_path isExec dirpath _ _ info hbuild
  · intro dirpath seen fs subdirs h1 h2 real hmem hbuild v hv
    have hmem2 : realpath dirpath ∉ seen := hmem
    simp only [walkTree, if_neg h1, h2, if_true, if_neg hmem2, hbuild] at hv
    exact absurd hv (List.not_mem_nil v)
  · intro dirpath seen fs subdirs h1 h2 ih v hv
    simp only [walkTree, if_neg h1, if_neg h2] at hv
    exact ih v hv
  · intro dirpath seen v hv
    simp only [walkForest] at hv
    exact absurd hv (List.not_mem_nil v)
  · intro dirpath seen name child rest hkeep p ih1 ih2 v hv
    simp only [walkForest, if_pos hkeep, List.mem_append] at hv
    rcases hv with hv | hv
    · rcases ih1 v hv with ⟨comps, hpath, hkept⟩
      refine ⟨name :: comps, by rw [hpath]; rfl, ?_⟩
      intro c hc
      rcases List.mem_cons.mp hc with hc | hc
      · rw [hc]
        exact hkeep
      · exact hkept c hc
    · exact ih2 v hv
  · intro dirpath seen name child rest hkeep ih v hv
    simp only [walkForest, if_neg hkeep] at hv
    exact ih v hv

/-- Every descriptor accumulated by the root loop came from the walk of
one of the scanned roots (or was already accumulated). -/
theorem discover_foldl_mem (isExec : Str → Bool) (realpath : Str → Str)
    (maxDepth : Nat) :
    ∀ (roots : List (Str × Option DirTree)) (acc : List VenvInfo × List Str),
      ∀ v ∈ (roots.foldl (discoverStep isExec realpath maxDepth) acc).1,
        v ∈ acc.1 ∨ ∃ r t seen0, (r, some t) ∈ roots ∧
          v ∈ (walkTree isExec realpath maxDepth r t r seen0).1 := by
  intro roots
  induction roots with
  | nil =>
    intro acc v hv
    exact Or.inl hv
  | cons root rs ih =>
    intro acc v hv
    rw [List.foldl_cons] at hv
    rcases ih (discoverStep isExec realpath maxDepth acc root) v hv with h | h
    · cases hroot : root.2 with
      | none =>
        simp only [discoverStep, hroot] at h
        exact Or.inl h
      | some t =>
        simp only [discoverStep, hroot] at h
        rcases List.mem_append.mp h with h1 | h2
        · exact Or.inl h1
        · refine Or.inr ⟨root.1, t, acc.2, ?_, h2⟩
          have : (root.1, some t) = root := by
            rw [← hroot]
          rw [this]
          exact List.mem_cons_self root rs
    · rcases h with ⟨r, t, seen0, hmem, hwalk⟩
      exact Or.inr ⟨r, t, seen0, List.mem_cons_of_mem root hmem, hwalk⟩

/-! ## Claim C5: the depth bound -/

/-- C5: discover never returns a descriptor whose path depth — the
path-separator count of the stored path relative to its scan root —
exceeds max_depth (the walk in fact keeps it strictly below), and once a
directory's recomputed depth has reached max_depth the walk neither
yields it nor descends from it: it returns nothing and leaves the seen
set untouched. -/
theorem discover_venvs_depth_bound (isExec : Str → Bool)
    (realpath : Str → Str) (roots : List (Str × Option DirTree))
    (maxDepth : Nat) :
    (∀ v ∈ discover_venvs isExec realpath roots maxDepth,
      ∃ r, (∃ t, (r, some t) ∈ roots) ∧
        sepCount (v.path.drop r.length) ≤ maxDepth ∧
        sepCount (v.path.drop r.length) < maxDepth) ∧
    (∀ (base : Str) (t : DirTree) (dirpath : Str) (seen : List Str),
      sepCount (dirpath.drop base.length) ≥ maxDepth →
      walkTree isExec realpath maxDepth base t dirpath seen = ([], seen)) := by
  constructor
  · intro v hv
    rcases discover_foldl_mem isExec realpath maxDepth roots ([], []) v hv
      with h | ⟨r, t, seen0, hmem, hwalk⟩
    · exact absurd h (List.not_mem_nil v)
    · have hlt := walkTree_depth_lt isExec realpath maxDepth r t r seen0 v hwalk
      exact ⟨r, ⟨t, hmem⟩, Nat.le_of_lt hlt, hlt⟩
  · intro base t dirpath seen h
    cases t with
    | node fs subdirs =>
      simp only [walkTree, if_pos h]

/-- C5 witness: on a concrete root whose tree holds an environment one
level down, the returned descriptor satisfies the depth bound, and
walking any tree from a directory already at the bound yields nothing. -/
theorem discover_venvs_depth_bound_witness :
    (discover_venvs isExecNone realpathId
      [(ofStr "/r", some sampleTree)] 3).length = 1 ∧
    (∃ r, (∃ t, (r, some t) ∈ [(ofStr "/r", some sampleTree)]) ∧
      sepCount (sampleVenvInfo.path.drop r.length) ≤ 3 ∧
      sepCount (sampleVenvInfo.path.drop r.length) < 3) ∧
    walkTree isExecNone realpathId 3 (ofStr "/r") sampleTree
      (ofStr "/r/a/b/c") [] = ([], []) := by
  refine ⟨by decide, ?_, ?_⟩
  · have h := (discover_venvs_depth_bound isExecNone realpathId
      [(ofStr "/r", some sampleTree)] 3).1
    have hmem : sampleVenvInfo ∈ discover_venvs isExecNone realpathId
        [(ofStr "/r", some sampleTree)] 3 := by decide
    exact h sampleVenvInfo hmem
  · exact (discover_venvs_depth_bound isExecNone realpathId
      [(ofStr "/r", some sampleTree)] 3).2 (ofStr "/r") sampleTree
      (ofStr "/r/a/b/c") [] (by decide)

/-! ## Claim C6: pruning rules of the traversal -/

/-- C6: the traversal only ever reaches a descriptor through path
components that all survive the pruning condition; that condition rejects
every denylisted name and every hidden name except the two environment
conventions .venv and .env, which are always kept — and on a concrete
layout holding environments under both .venv and .git, exactly the .venv
one is returned. -/
theorem discover_venvs_prune_rules (isExec : Str → Bool)
    (realpath : Str → Str) (roots : List (Str × Option DirTree))
    (maxDepth : Nat) :
    (∀ v ∈ discover_venvs isExec realpath roots maxDepth,
      ∃ r, (∃ t, (r, some t) ∈ roots) ∧
        ∃ comps : List Str, v.path = comps.foldl pathJoin r ∧
          ∀ c ∈ comps, keepDirname c = true) ∧
    keepDirname (ofStr ".venv") = true ∧
    keepDirname (ofStr ".env") = true ∧
    (∀ d ∈ SKIP_DIRS, keepDirname d = false) ∧
    (∀ d, startsWithDot d = true → d ≠ ofStr ".venv" → d ≠ ofStr ".env" →
      keepDirname d = false) ∧
    discover_venvs isExecNone realpathId [(ofStr "/r", some sampleTree)] 3
      = [sampleVenvInfo] := by
  refine ⟨?_, by decide, by decide, by decide, ?_, by decide⟩
  · intro v hv
    rcases discover_foldl_mem isExec realpath maxDepth roots ([], []) v hv
      with h | ⟨r, t, seen0, hmem, hwalk⟩
    · exact absurd h (List.not_mem_nil v)
    · exact ⟨r, ⟨t, hmem⟩,
        walkTree_components isExec realpath maxDepth r t r seen0 v hwalk⟩
  · intro d hdot hv he
    have hv2 : (d == ofStr ".venv") = false := by
      exact beq_eq_false_iff_ne.mpr hv
    have he2 : (d == ofStr ".env") = false := by
      exact beq_eq_false_iff_ne.mpr he
    simp [keepDirname, hdot, hv2, he2]

/-- C6 witness: on the sample layout the general component property
applied to the returned .venv descriptor produces its kept components,
and a hidden non-convention name is rejected concretely. -/
theorem discover_venvs_prune_rules_witness :
    (∃ r, (∃ t, (r, some t) ∈ [(ofStr "/r", some sampleTree)]) ∧
      ∃ comps : List Str, sampleVenvInfo.path = comps.foldl pathJoin r ∧
        ∀ c ∈ comps, keepDirname c = true) ∧
    startsWithDot (ofStr ".hidden") = true ∧
    keepDirname (ofStr ".hidden") = false := by
  refine ⟨?_, by decide, ?_⟩
  · exact (discover_venvs_prune_rules isExecNone realpathId
      [(ofStr "/r", some sampleTree)] 3).1 sampleVenvInfo (by decide)
  · exact (discover_venvs_prune_rules isExecNone realpathId
      [(ofStr "/r", some sampleTree)] 3).2.2.2.2.1 (ofStr ".hidden")
      (by decide) (by decide) (by decide)

/-! ## Python interpreter locator (venv_manager.detect_python_versions,
lines 60-103)

The glob expansion, existence, executability, symlink resolution and
version-query subprocess are oracle parameters; the scan over the fixed
pattern list and the deduplication by canonical path are the code under
verification. -/

structure LocOracle where
  home : Str
  globSorted : Str → List Str
  pathExists : Str → Bool
  isDirVersions : Bool
  isExec : Str → Bool
  realpath : Str → Str
  runVersion : Str → Option (Int × Str)

/-- The pyenv versions root os.path.expanduser resolves. -/
def pyenvRoot (os : LocOracle) : Str := os.home ++ ofStr "/.pyenv/versions"

/-- The fixed search pattern list of detect_python_versions (lines
64-75), with the pyenv pattern appended when its root is a directory. -/
def search_patterns (os : LocOracle) : List (Str × Str) :=
  [(ofStr "/usr/bin/python3", ofStr "system"),
   (ofStr "/opt/homebrew/bin/python3", ofStr "homebrew"),
   (ofStr "/opt/homebrew/bin/python3.*[0-9]", ofStr "homebrew"),
   (ofStr "/usr/local/bin/python3", ofStr "homebrew"),
   (ofStr "/usr/local/bin/python3.*[0-9]", ofStr "homebrew"),
   (ofStr "/Library/Frameworks/Python.framework/Versions/*/bin/python3",
    ofStr "python.org")] ++
  (if os.isDirVersions then
    [(pathJoin (pyenvRoot os) (ofStr "*/bin/python3"), ofStr "pyenv")]
  else [])

/-- The pattern classification of line 78: glob-expand when the pattern
holds a star or its final component holds a dot, otherwise treat it as a
literal path kept only if it exists. -/
def usesGlob (pattern : Str) : Bool :=
  pattern.contains '*' || ((splitOnChar '/' pattern).getLastD []).contains '.'

/-- The resolved candidate paths of one pattern (lines 78-81). -/
def candidate_paths (os : LocOracle) (pattern : Str) : List Str :=
  if usesGlob pattern then os.globSorted pattern
  else if os.pathExists pattern then [pattern] else []

/-- All candidate interpreter paths with their provenance, in
scan-pattern order. -/
def candidates (os : LocOracle) : List (Str × Str) :=
  (search_patterns os).flatMap
    (fun ps => (candidate_paths os ps.1).map (fun p => (p, ps.2)))

/-- Fuel-indexed replacement of every occurrence of a pattern by nothing,
modelling str.replace(pat, empty); the fuel is the string length, which
suffices since every step consumes at least one character. -/
def replaceDropFuel (pat : Str) : Nat → Str → Str
  | _, [] => []
  | 0, s => s
  | Nat.succ n, c :: rest =>
    if pat.isPrefixOf (c :: rest) && !(pat.isEmpty) then
      replaceDropFuel pat n ((c :: rest).drop pat.length)
    else c :: replaceDropFuel pat n rest

/-- Python str.replace(pat, empty string) for the nonempty pattern used
by the locator. -/
def replaceDrop (pat s : Str) : Str := replaceDropFuel pat s.length s

/-- The version string derivation of line 96:
result.stdout.strip().replace(Python-space, empty). -/
def parseVersionOut (out : Str) : Str :=
  replaceDrop (ofStr "Python ") (strip out)

/-- Lexicographic comparison of version tuples, the order of Python
tuple comparison. -/
def intLexLe : List Int → List Int → Bool
  | [], _ => true
  | _ :: _, [] => false
  | a :: as, b :: bs => if a = b then intLexLe as bs else decide (a < b)

/-- Python int() on one version component: stripped, optional sign,
digits only. -/
def parsePyInt (s : Str) : Option Int :=
  let digits : Str → Option Nat := fun ds =>
    if ds = [] then none
    else
      ds.foldl
        (fun acc c =>
          match acc with
          | none => none
          | some n => if c.isDigit then some (n * 10 + (c.toNat - 48)) else none)
        (some 0)
  match strip s with
  | '-' :: ds => (digits ds).map (fun n => -(n : Int))
  | '+' :: ds => (digits ds).map (fun n => (n : Int))
  | ds => (digits ds).map (fun n => (n : Int))

/-- venv_manager._version_tuple (lines 106-110): the first three dotted
components as integers, or zeros when any fails to parse. -/
def version_tuple (s : Str) : List Int :=
  match ((splitOnChar '.' s).take 3).mapM parsePyInt with
  | some l => l
  | none => [0, 0, 0]

/-- The descending version order of the final candidates.sort with
reverse True; only its permutation property is consumed by the claims. -/
def versionGe (a b : PythonInstall) : Bool :=
  intLexLe (version_tuple b.version) (version_tuple a.version)

/-- The candidate filter of the scan loop: executable and answering the
version query with exit code zero. -/
def passes (os : LocOracle) (path : Str) : Bool :=
  os.isExec path &&
    (match os.runVersion path with
     | some (rc, _) => decide (rc = 0)
     | none => false)

/-- The scan loop of detect_python_versions (lines 77-100): skip a
candidate whose canonical path was already accepted, skip non-executable
candidates, run the version query swallowing failures, and accept the
rest, recording the canonical path as seen. -/
def detectScan (os : LocOracle) :
    List (Str × Str) → List Str → List PythonInstall
  | [], _ => []
  | (path, src) :: rest, seen =>
    if os.realpath path ∈ seen then detectScan os rest seen
    else if !(os.isExec path) then detectScan os rest seen
    else
      match os.runVersion path with
      | none => detectScan os rest seen
      | some (rc, out) =>
        if rc = 0 then
          PythonInstall.mk path (parseVersionOut out) src
            :: detectScan os rest (os.realpath path :: seen)
        else detectScan os rest seen

/-- venv_manager.detect_python_versions: the scan over all candidates,
sorted descending by version tuple. -/
def detect_python_versions (os : LocOracle) : List PythonInstall :=
  insertionSortB versionGe (detectScan os (candidates os) [])

/-- No accepted install has a canonical path that was already seen. -/
theorem detectScan_not_seen (os : LocOracle) :
    ∀ (cs : List (Str × Str)) (seen : List Str) (v : PythonInstall),
      v ∈ detectScan os cs seen → os.realpath v.path ∉ seen := by
  intro cs
  induction cs with
  | nil =>
    intro seen v hv
    exact absurd hv (List.not_mem_nil v)
  | cons c rest ih =>
    intro seen v hv
    rcases c with ⟨path, src⟩
    simp only [detectScan] at hv
    by_cases h1 : os.realpath path ∈ seen
    · rw [if_pos h1] at hv
      exact ih seen v hv
    · rw [if_neg h1] at hv
      by_cases h2 : os.isExec path = true
      · simp only [h2, Bool.not_true, Bool.false_eq_true, if_false] at hv
        cases hrun : os.runVersion path with
        | none =>
          rw [hrun] at hv
          exact ih seen v hv
        | some p =>
          rw [hrun] at hv
          rcases p with ⟨rc, out⟩
          dsimp only at hv
          by_cases hrc : rc = 0
          · rw [if_pos hrc] at hv
            rcases List.mem_cons.mp hv with hva | hvl
            · rw [hva]
              exact h1
            · intro hmem
              exact ih _ v hvl (List.mem_cons_of_mem _ hmem)
          · rw [if_neg hrc] at hv
            exact ih seen v hv
      · simp only [Bool.not_eq_true] at h2
        simp only [h2, Bool.not_false, if_true] at hv
        exact ih seen v hv

/-- A candidate whose canonical path was already seen is skipped. -/
theorem detectScan_cons_skip (os : LocOracle) (path src : Str)
    (rest : List (Str × Str)) (seen : List Str)
    (h : os.realpath path ∈ seen) :
    detectScan os ((path, src) :: rest) seen = detectScan os rest seen := by
  simp only [detectScan, if_pos h]

/-- A candidate failing the executability or version-query check is
skipped without recording anything. -/
theorem detectScan_cons_fail (os : LocOracle) (path src : Str)
    (rest : List (Str × Str)) (seen : List Str)
    (h1 : os.realpath path ∉ seen) (h2 : passes os path = false) :
    detectScan os ((path, src) :: rest) seen = detectScan os rest seen := by
  simp only [detectScan, if_neg h1]
  cases hex : os.isExec path with
  | false => simp [hex]
  | true =>
    simp only [hex, Bool.not_true, Bool.false_eq_true, if_false]
    cases hrun : os.runVersion path with
    | none => rfl
    | some p =>
      rcases p with ⟨rc, out⟩
      dsimp only
      have hrc : ¬ rc = 0 := by
        intro hrc0
        rw [passes, hex, hrun] at h2
        simp [hrc0] at h2
      rw [if_neg hrc]

/-- A fresh candidate passing both checks is accepted in place, and the
scan of the remainder sees its canonical path. -/
theorem detectScan_cons_pass (os : LocOracle) (path src : Str)
    (rest : List (Str × Str)) (seen : List Str)
    (h1 : os.realpath path ∉ seen) (h2 : passes os path = true) :
    ∃ ver, detectScan os ((path, src) :: rest) seen
      = PythonInstall.mk path ver src
        :: detectScan os rest (os.realpath path :: seen) := by
  have hex : os.isExec path = true := by
    rw [passes, Bool.and_eq_true] at h2
    exact h2.1
  cases hrun : os.runVersion path with
  | none =>
    rw [passes, hex, hrun] at h2
    simp at h2
  | some p =>
    rcases p with ⟨rc, out⟩
    have hrc : rc = 0 := by
      rw [passes, Bool.and_eq_true, hrun] at h2
      simpa using h2.2
    refine ⟨parseVersionOut out, ?_⟩
    simp only [detectScan, if_neg h1, hex, Bool.not_true, Bool.false_eq_true,
      if_false, hrun]
    rw [if_pos hrc]

/-- The scan accepts at most one install per canonical path. -/
theorem detectScan_pairwise (os : LocOracle) :
    ∀ (cs : List (Str × Str)) (seen : List Str),
      (detectScan os cs seen).Pairwise
        (fun a b => os.realpath a.path ≠ os.realpath b.path) := by
  intro cs
  induction cs with
  | nil =>
    intro seen
    simp [detectScan]
  | cons c rest ih =>
    intro seen
    rcases c with ⟨path, src⟩
    by_cases h1 : os.realpath path ∈ seen
    · rw [detectScan_cons_skip os path src rest seen h1]
      exact ih seen
    · by_cases h2 : passes os path = true
      · rcases detectScan_cons_pass os path src rest seen h1 h2 with ⟨ver, heq⟩
        rw [heq]
        refine List.pairwise_cons.mpr ⟨?_, ih _⟩
        intro w hw
        have := detectScan_not_seen os rest _ w hw
        intro hcontra
        exact this (hcontra ▸ List.mem_cons_self _ _)
      · rw [detectScan_cons_fail os path src rest seen h1
          (Bool.not_eq_true _ ▸ h2)]
        exact ih seen

/-- Every fresh passing candidate is represented in the scan result by an
install with its canonical path. -/
theorem detectScan_covers (os : LocOracle) :
    ∀ (cs : List (Str × Str)) (seen : List Str) (c : Str × Str),
      c ∈ cs → passes os c.1 = true → os.realpath c.1 ∉ seen →
      ∃ v ∈ detectScan os cs seen, os.realpath v.path = os.realpath c.1 := by
  intro cs
  induction cs with
  | nil =>
    intro seen c hc
    exact absurd hc (List.not_mem_nil c)
  | cons a rest ih =>
    intro seen c hc hpass hseen
    rcases a with ⟨path, src⟩
    rcases List.mem_cons.mp hc with hca | hcr
    · rw [hca] at hpass hseen
      rcases detectScan_cons_pass os path src rest seen hseen hpass with ⟨ver, heq⟩
      rw [heq, hca]
      exact ⟨PythonInstall.mk path ver src, List.mem_cons_self _ _, rfl⟩
    · by_cases h1 : os.realpath path ∈ seen
      · rw [detectScan_cons_skip os path src rest seen h1]
        exact ih seen c hcr hpass hseen
      · by_cases h2 : passes os path = true
        · rcases detectScan_cons_pass os path src rest seen h1 h2 with ⟨ver, heq⟩
          rw [heq]
          by_cases hsame : os.realpath c.1 = os.realpath path
          · exact ⟨PythonInstall.mk path ver src, List.mem_cons_self _ _,
              hsame.symm⟩
          · have hseen2 : os.realpath c.1 ∉ os.realpath path :: seen := by
              intro hmem
              rcases List.mem_cons.mp hmem with h | h
              · exact hsame h
              · exact hseen h
            rcases ih _ c hcr hpass hseen2 with ⟨v, hv, hveq⟩
            exact ⟨v, List.mem_cons_of_mem _ hv, hveq⟩
        · rw [detectScan_cons_fail os path src rest seen h1
            (Bool.not_eq_true _ ▸ h2)]
          exact ih seen c hcr hpass hseen

/-- Every accepted install is the first passing candidate of its
canonical path: all candidates before it in scan order sharing its
canonical path fail the checks. -/
theorem detectScan_first (os : LocOracle) :
    ∀ (cs : List (Str × Str)) (seen : List Str) (v : PythonInstall),
      v ∈ detectScan os cs seen →
      ∃ pre c post, cs = pre ++ c :: post ∧ c.1 = v.path ∧ c.2 = v.source ∧
        passes os c.1 = true ∧
        ∀ u ∈ pre, os.realpath u.1 = os.realpath v.path →
          passes os u.1 = false := by
  intro cs
  induction cs with
  | nil =>
    intro seen v hv
    exact absurd hv (List.not_mem_nil v)
  | cons a rest ih =>
    intro seen v hv
    rcases a with ⟨path, src⟩
    by_cases h1 : os.realpath path ∈ seen
    · rw [detectScan_cons_skip os path src rest seen h1] at hv
      have hnseen := detectScan_not_seen os rest seen v hv
      rcases ih seen v hv with ⟨pre, c, post, hsplit, hc1, hc2, hcp, hpre⟩
      refine ⟨(path, src) :: pre, c, post, by rw [hsplit]; rfl, hc1, hc2, hcp, ?_⟩
      intro u hu
      rcases List.mem_cons.mp hu with hua | hur
      · rw [hua]
        intro heq
        exact absurd (heq ▸ h1) hnseen
      · exact hpre u hur
    · by_cases h2 : passes os path = true
      · rcases detectScan_cons_pass os path src rest seen h1 h2 with ⟨ver, heq⟩
        rw [heq] at hv
        rcases List.mem_cons.mp hv with hva | hvr
        · refine ⟨[], (path, src), rest, rfl, ?_, ?_, h2, ?_⟩
          · rw [hva]
          · rw [hva]
          · intro u hu
            exact absurd hu (List.not_mem_nil u)
        · have hnseen := detectScan_not_seen os rest _ v hvr
          rcases ih _ v hvr with ⟨pre, c, post, hsplit, hc1, hc2, hcp, hpre⟩
          refine ⟨(path, src) :: pre, c, post, by rw [hsplit]; rfl, hc1, hc2,
            hcp, ?_⟩
          intro u hu
          rcases List.mem_cons.mp hu with hua | hur
          · rw [hua]
            intro hrpeq
            exact absurd (hrpeq ▸ List.mem_cons_self _ _) hnseen
          · exact hpre u hur
      · have h2f : passes os path = false := Bool.not_eq_true _ ▸ h2
        rw [detectScan_cons_fail os path src rest seen h1 h2f] at hv
        rcases ih seen v hv with ⟨pre, c, post, hsplit, hc1, hc2, hcp, hpre⟩
        refine ⟨(path, src) :: pre, c, post, by rw [hsplit]; rfl, hc1, hc2,
          hcp, ?_⟩
        intro u hu
        rcases List.mem_cons.mp hu with hua | hur
        · rw [hua]
          intro _
          exact h2f
        · exact hpre u hur

/-! ## Claim C8: locator deduplication by canonical target -/

/-- C8: detect returns at most one install per canonical
(symlink-resolved) target: its result is a version-sorted permutation of
the scan, whose entries have pairwise distinct canonical paths; every
passing candidate target is represented, and the representative of each
target is the first passing candidate of that target in scan-pattern
order. -/
theorem detect_python_versions_dedup (os : LocOracle) :
    (detect_python_versions os).Perm (detectScan os (candidates os) []) ∧
    (detect_python_versions os).Pairwise
      (fun a b => os.realpath a.path ≠ os.realpath b.path) ∧
    (∀ c ∈ candidates os, passes os c.1 = true →
      ∃ v ∈ detect_python_versions os,
        os.realpath v.path = os.realpath c.1) ∧
    (∀ v ∈ detect_python_versions os,
      ∃ pre c post, candidates os = pre ++ c :: post ∧ c.1 = v.path ∧
        c.2 = v.source ∧ passes os c.1 = true ∧
        ∀ u ∈ pre, os.realpath u.1 = os.realpath v.path →
          passes os u.1 = false) := by
  have hperm : (detect_python_versions os).Perm
      (detectScan os (candidates os) []) :=
    insertionSortB_perm versionGe _
  refine ⟨hperm, ?_, ?_, ?_⟩
  · exact (hperm.pairwise_iff (fun h => Ne.symm h)).mpr
      (detectScan_pairwise os (candidates os) [])
  · intro c hc hpass
    rcases detectScan_covers os (candidates os) [] c hc hpass
      (List.not_mem_nil _) with ⟨v, hv, hveq⟩
    exact ⟨v, hperm.mem_iff.mpr hv, hveq⟩
  · intro v hv
    exact detectScan_first os (candidates os) [] v (hperm.mem_iff.mp hv)

/-- A concrete locator oracle: the homebrew glob finds python3.12, which
is a symlink to the system python3; both pass every check. -/
def locSample : LocOracle :=
  { home := ofStr "/home/u"
    globSorted := fun pat =>
      if pat = ofStr "/opt/homebrew/bin/python3.*[0-9]" then
        [ofStr "/opt/homebrew/bin/python3.12"]
      else []
    pathExists := fun p => decide (p = ofStr "/usr/bin/python3")
    isDirVersions := false
    isExec := fun p => decide (p = ofStr "/usr/bin/python3")
      || decide (p = ofStr "/opt/homebrew/bin/python3.12")
    realpath := fun p =>
      if p = ofStr "/opt/homebrew/bin/python3.12" then ofStr "/usr/bin/python3"
      else p
    runVersion := fun _ => some (0, ofStr "Python 3.12.0\n") }

/-- C8 witness: with two passing candidates resolving to one canonical
target, detect returns the single first-in-scan-order entry, and the
contract applied at the duplicate candidate shows its target is
represented. -/
theorem detect_python_versions_dedup_witness :
    detect_python_versions locSample
      = [PythonInstall.mk (ofStr "/usr/bin/python3") (ofStr "3.12.0")
          (ofStr "system")] ∧
    (ofStr "/opt/homebrew/bin/python3.12", ofStr "homebrew")
      ∈ candidates locSample ∧
    passes locSample (ofStr "/opt/homebrew/bin/python3.12") = true ∧
    (∃ v ∈ detect_python_versions locSample,
      locSample.realpath v.path
        = locSample.realpath (ofStr "/opt/homebrew/bin/python3.12")) := by
  refine ⟨by decide, by decide, by decide, ?_⟩
  exact (detect_python_versions_dedup locSample).2.2.1
    (ofStr "/opt/homebrew/bin/python3.12", ofStr "homebrew") (by decide)
    (by decide)

end PyEnvy
